import Mathlib

/-! Overview.

Shallow embedding of `src/crypto_scheme.py`: the key generator `GEN`, the
round cipher `ENC` and its inverse `DEC`, over bit sequences modelled as
`List Nat`.

Python raises `ValueError` ("LengthMismatch") when the key's length differs
from the data argument's length, and raises `ZeroDivisionError` when the
common length is zero, because the expression `(r * 11) % n` divides by
zero (in `ENC` this happens at the first round's shift computation, in
`DEC` at the first round's shift computation after an empty permutation
loop).  Fallible calls are therefore modelled with `Except PyErr`.
-/

inductive PyErr where
  | lengthMismatch
  | zeroDivision
deriving DecidableEq

/-- One byte's bits, most significant bit first: Python
`(byte >> (7 - i)) & 1` for `i = 0..7` (src lines 37-39). -/
def byteBits (b : Nat) : List Nat :=
  (List.range 8).map (fun i => b >>> (7 - i) &&& 1)

/-- Bits of a digest, byte after byte (src lines 36-39). -/
def bytesToBits (bs : List Nat) : List Nat :=
  (bs.map byteBits).flatten

/-- Hash input for block `counter`: the seed alone for block 0, otherwise
`seed + str(counter)` with the decimal counter string (src lines 25, 32-34). -/
def blockInput (seed : String) (counter : Nat) : String :=
  if counter = 0 then seed else seed ++ Nat.repr counter

/-- Loop `while len(key_bits) < key_len` of GEN (src lines 31-40).
One iteration appends the current digest's bits one by one while the buffer
is still short, which equals appending `take (key_len - |acc|)` of the
block's bit list.  The Python loop terminates because every SHA-256 digest
contributes 256 bits; `key_len` iterations of fuel are always enough for a
digest of 32 bytes, since each iteration with a non-empty digest adds at
least one bit. -/
def genLoop (h : String → List Nat) (seed : String) (key_len : Nat) :
    Nat → Nat → List Nat → List Nat
  | 0, _, acc => acc
  | fuel + 1, counter, acc =>
    if acc.length < key_len then
      genLoop h seed key_len fuel (counter + 1)
        (acc ++ (bytesToBits (h (blockInput seed counter))).take (key_len - acc.length))
    else acc

/-- GEN (src lines 11-42), parametric in the hash `h`, which models
`hashlib.sha256(x.encode()).digest()` as a list of byte values; SHA-256 is
library code outside this repository, so it stays an abstract parameter
(theorems assume only its 32-byte digest length).  `key_len = 4 * len(seed)`
(src lines 22-23) and the final `[:key_len]` truncation (src line 42). -/
def GEN (h : String → List Nat) (seed : String) : List Nat :=
  (genLoop h seed (4 * seed.length) (4 * seed.length) 0 []).take (4 * seed.length)

/-- Multiplier choice `mult = 3 if n % 3 != 0 else 5` (src lines 72 and 102). -/
def multOf (n : Nat) : Nat := if n % 3 ≠ 0 then 3 else 5

/-- Position map `new_pos = (i * mult + r * 7) % n` (src lines 74 and 104). -/
def permIndex (n r i : Nat) : Nat := (i * multOf n + r * 7) % n

/-- XOR with the rotated key (src lines 66-68, identical at 108-110):
`shift = (r * 11) % n` and `C[i] ^= K[(i + shift) % n]` for each `i < n`;
the loop body at position `i` reads only `C[i]` and the key, so the
in-place loop is the map below. -/
def xorRound (K : List Nat) (n r : Nat) (C : List Nat) : List Nat :=
  (List.range n).map (fun i => C.getD i 0 ^^^ K.getD ((i + r * 11 % n) % n) 0)

/-- Forward permutation (src lines 71-75): snapshot the buffer as `C_temp`,
then for `i = 0, 1, ..., n-1` in order write `C_temp[i]` to `new_pos`;
later writes overwrite earlier ones when `new_pos` collides, and positions
never written keep their pre-permutation value, exactly as in the source. -/
def permRound (n r : Nat) (C : List Nat) : List Nat :=
  (List.range n).foldl (fun acc i => acc.set (permIndex n r i) (C.getD i 0)) C

/-- Inverse permutation (src lines 101-105): snapshot as `M_temp`, then
`M[i] = M_temp[new_pos]`; position `i` is written once, from the snapshot. -/
def permRoundInv (n r : Nat) (M : List Nat) : List Nat :=
  (List.range n).map (fun i => M.getD (permIndex n r i) 0)

/-- One encryption round `r` (src lines 64-75): keyed XOR, then scatter. -/
def encRound (K : List Nat) (n : Nat) (C : List Nat) (r : Nat) : List Nat :=
  permRound n r (xorRound K n r C)

/-- One decryption round `r` (src lines 99-110): gather, then keyed XOR. -/
def decRound (K : List Nat) (n : Nat) (M : List Nat) (r : Nat) : List Nat :=
  xorRound K n r (permRoundInv n r M)

/-- ENC (src lines 45-77): length check (src 57-58), then 6 rounds on a
copy of `M`.  For `n = 0` the first `shift = (r * 11) % n` raises
`ZeroDivisionError` before any output is produced. -/
def ENC (K M : List Nat) : Except PyErr (List Nat) :=
  if K.length ≠ M.length then .error .lengthMismatch
  else if M.length = 0 then .error .zeroDivision
  else .ok ((List.range 6).foldl (encRound K M.length) M)

/-- DEC (src lines 80-112): length check (src 92-93), then the rounds in
order `5, 4, ..., 0` (`range(rounds - 1, -1, -1)`), each undoing the
permutation and then the XOR.  For `n = 0` the first round's
`shift = (r * 11) % n` raises `ZeroDivisionError`. -/
def DEC (K C : List Nat) : Except PyErr (List Nat) :=
  if K.length ≠ C.length then .error .lengthMismatch
  else if C.length = 0 then .error .zeroDivision
  else .ok ((List.range 6).reverse.foldl (decRound K C.length) C)

/-- Bitwise XOR of two bit sequences of equal length, position by position. -/
def listXor (a b : List Nat) : List Nat := List.zipWith (· ^^^ ·) a b

/-- Modelled from the spec's words (§4.1) for comparison with `GEN`:
the key is the first `4 × length(seed)` bits of the stream obtained by
concatenating, block after block, the MSB-first bits of
`hash(seed)` (block 0) and `hash(seed || decimal_string(counter))`
(blocks `counter = 1, 2, ...`), truncated to exactly the target length. -/
def expandKeySpec (h : String → List Nat) (seed : String) : List Nat :=
  (((List.range (4 * seed.length)).map
      (fun k => bytesToBits (h (blockInput seed k)))).flatten).take (4 * seed.length)

/-- Stand-in 32-byte digest used to instantiate hash-parametric theorems
on concrete inputs. -/
def constDigest : String → List Nat := fun _ => List.replicate 32 0

/-! Section: basic helper lemmas. -/

theorem getD_map_range {f : Nat → Nat} {n i : Nat} (h : i < n) :
    ((List.range n).map f).getD i 0 = f i := by
  rw [List.getD_eq_getElem?_getD, List.getElem?_map, List.getElem?_range h]
  rfl

theorem map_getD_range (C : List Nat) :
    (List.range C.length).map (fun i => C.getD i 0) = C := by
  apply List.ext_getElem
  · simp
  · intro i h1 h2
    simp only [List.getElem_map, List.getElem_range]
    exact List.getD_eq_getElem C 0 h2

theorem length_xorRound (K : List Nat) (n r : Nat) (C : List Nat) :
    (xorRound K n r C).length = n := by
  simp [xorRound]

theorem foldl_set_length (pos v : Nat → Nat) :
    ∀ (l : List Nat) (acc : List Nat),
      (l.foldl (fun a i => a.set (pos i) (v i)) acc).length = acc.length := by
  intro l
  induction l with
  | nil => intro acc; rfl
  | cons a t ih =>
      intro acc
      simp only [List.foldl_cons]
      rw [ih, List.length_set]

theorem length_permRound (n r : Nat) (C : List Nat) :
    (permRound n r C).length = C.length :=
  foldl_set_length _ _ _ _

theorem length_permRoundInv (n r : Nat) (M : List Nat) :
    (permRoundInv n r M).length = n := by
  simp [permRoundInv]

theorem length_encRound (K : List Nat) (n : Nat) (C : List Nat) (r : Nat) :
    (encRound K n C r).length = n := by
  rw [encRound, length_permRound, length_xorRound]

theorem length_decRound (K : List Nat) (n : Nat) (M : List Nat) (r : Nat) :
    (decRound K n M r).length = n := by
  rw [decRound, length_xorRound]

/-- `mult` is coprime to `n` exactly because `n` avoids the multiples of 15:
if `3 ∤ n` then `mult = 3` is coprime to `n`; if `3 ∣ n` but `15 ∤ n` then
`5 ∤ n` and `mult = 5` is coprime to `n`. -/
theorem multOf_coprime {n : Nat} (h15 : n % 15 ≠ 0) :
    Nat.Coprime (multOf n) n := by
  unfold multOf
  by_cases h3 : n % 3 = 0
  · have h5 : ¬ (5 ∣ n) := by omega
    simpa [h3] using (Nat.prime_five.coprime_iff_not_dvd).mpr h5
  · have h3' : ¬ (3 ∣ n) := by omega
    simpa [h3] using (Nat.prime_three.coprime_iff_not_dvd).mpr h3'

theorem permIndex_lt {n : Nat} (hn : n ≠ 0) (r i : Nat) : permIndex n r i < n :=
  Nat.mod_lt _ (Nat.pos_of_ne_zero hn)

theorem permIndex_inj {n : Nat} (h15 : n % 15 ≠ 0) (r : Nat)
    {i j : Nat} (hi : i < n) (hj : j < n)
    (h : permIndex n r i = permIndex n r j) : i = j := by
  have hmod : i * multOf n + r * 7 ≡ j * multOf n + r * 7 [MOD n] := h
  have hmul : i * multOf n ≡ j * multOf n [MOD n] :=
    Nat.ModEq.add_right_cancel' (r * 7) hmod
  have hco : Nat.gcd n (multOf n) = 1 := ((multOf_coprime h15).symm : Nat.Coprime n _)
  have := Nat.ModEq.cancel_right_of_coprime hco hmul
  calc i = i % n := (Nat.mod_eq_of_lt hi).symm
    _ = j % n := this
    _ = j := Nat.mod_eq_of_lt hj

/-! Section: the scatter fold, reading back a position written by the loop. -/

theorem foldl_set_getD_not_mem (pos v : Nat → Nat) :
    ∀ (l : List Nat) (acc : List Nat) (j : Nat), (∀ i ∈ l, pos i ≠ j) →
      (l.foldl (fun a i => a.set (pos i) (v i)) acc).getD j 0 = acc.getD j 0 := by
  intro l
  induction l with
  | nil => intro acc j _; rfl
  | cons a t ih =>
      intro acc j hne
      simp only [List.foldl_cons]
      rw [ih _ _ (fun i hi => hne i (List.mem_cons_of_mem a hi))]
      rw [List.getD_eq_getElem?_getD, List.getD_eq_getElem?_getD,
        List.getElem?_set_ne (hne a (List.mem_cons_self a t))]

theorem foldl_set_getD_mem (pos v : Nat → Nat) :
    ∀ (l : List Nat) (acc : List Nat) (i₀ : Nat), i₀ ∈ l →
      (∀ i ∈ l, ∀ i' ∈ l, pos i = pos i' → i = i') →
      pos i₀ < acc.length →
      (l.foldl (fun a i => a.set (pos i) (v i)) acc).getD (pos i₀) 0 = v i₀ := by
  intro l
  induction l with
  | nil => intro acc i₀ h; exact absurd h (List.not_mem_nil i₀)
  | cons a t ih =>
      intro acc i₀ hmem hinj hlt
      simp only [List.foldl_cons]
      by_cases hit : i₀ ∈ t
      · exact ih _ i₀ hit
          (fun i hi i' hi' => hinj i (List.mem_cons_of_mem a hi) i' (List.mem_cons_of_mem a hi'))
          (by rwa [List.length_set])
      · have hia : i₀ = a := by
          rcases List.mem_cons.mp hmem with h | h
          · exact h
          · exact absurd h hit
        subst hia
        have hne : ∀ i ∈ t, pos i ≠ pos i₀ := by
          intro i hi heq
          exact hit (hinj i (List.mem_cons_of_mem i₀ hi) i₀ (List.mem_cons_self i₀ t) heq ▸ hi)
        rw [foldl_set_getD_not_mem pos v t _ _ hne]
        rw [List.getD_eq_getElem?_getD, List.getElem?_set_eq_of_lt _ hlt]
        rfl

/-- Value read back through the permutation after the forward scatter:
for `C` of length `n` and an injective position map, `permRound` puts
`C[i]` at `permIndex n r i`. -/
theorem permRound_getD {n : Nat} (h15 : n % 15 ≠ 0) (r : Nat)
    (C : List Nat) (hC : C.length = n) {i : Nat} (hi : i < n) :
    (permRound n r C).getD (permIndex n r i) 0 = C.getD i 0 := by
  have hn : n ≠ 0 := by intro h; exact h15 (by simp [h])
  exact foldl_set_getD_mem _ _ (List.range n) C i
    (List.mem_range.mpr hi)
    (fun a ha a' ha' h =>
      permIndex_inj h15 r (List.mem_range.mp ha) (List.mem_range.mp ha') h)
    (hC ▸ permIndex_lt hn r i)

/-- Gather-after-scatter is the identity on buffers of length `n`, as long
as `n` is not a multiple of 15. -/
theorem permRoundInv_permRound {n : Nat} (h15 : n % 15 ≠ 0) (r : Nat)
    (C : List Nat) (hC : C.length = n) :
    permRoundInv n r (permRound n r C) = C := by
  unfold permRoundInv
  calc (List.range n).map (fun i => (permRound n r C).getD (permIndex n r i) 0)
      = (List.range n).map (fun i => C.getD i 0) := by
        apply List.map_congr_left
        intro i hi
        exact permRound_getD h15 r C hC (List.mem_range.mp hi)
    _ = C := by rw [← hC]; exact map_getD_range C

/-- The keyed XOR is an involution on buffers of length `n`. -/
theorem xorRound_xorRound (K : List Nat) {n : Nat} (r : Nat)
    (C : List Nat) (hC : C.length = n) :
    xorRound K n r (xorRound K n r C) = C := by
  unfold xorRound
  calc (List.range n).map (fun i =>
          ((List.range n).map
            (fun i => C.getD i 0 ^^^ K.getD ((i + r * 11 % n) % n) 0)).getD i 0 ^^^
          K.getD ((i + r * 11 % n) % n) 0)
      = (List.range n).map (fun i => C.getD i 0) := by
        apply List.map_congr_left
        intro i hi
        rw [getD_map_range (List.mem_range.mp hi), Nat.xor_assoc, Nat.xor_self, Nat.xor_zero]
    _ = C := by rw [← hC]; exact map_getD_range C

/-- One decryption round undoes the matching encryption round. -/
theorem decRound_encRound (K : List Nat) {n : Nat} (h15 : n % 15 ≠ 0) (r : Nat)
    (C : List Nat) (hC : C.length = n) :
    decRound K n (encRound K n C r) r = C := by
  rw [decRound, encRound,
    permRoundInv_permRound h15 r _ (length_xorRound K n r C),
    xorRound_xorRound K r C hC]

/-! Section: folding the rounds and undoing them in reverse order. -/

theorem foldl_length_invariant (f : List Nat → Nat → List Nat) (n : Nat)
    (hf : ∀ x r, (f x r).length = n) :
    ∀ (l : List Nat) (x : List Nat), x.length = n → (l.foldl f x).length = n := by
  intro l
  induction l with
  | nil => intro x hx; exact hx
  | cons a t ih => intro x hx; exact ih (f x a) (hf x a)

theorem foldl_reverse_foldl (f g : List Nat → Nat → List Nat) (n : Nat)
    (hf : ∀ x r, x.length = n → (f x r).length = n)
    (hfg : ∀ x r, x.length = n → g (f x r) r = x) :
    ∀ (l : List Nat) (x : List Nat), x.length = n →
      l.reverse.foldl g (l.foldl f x) = x := by
  intro l
  induction l with
  | nil => intro x _; rfl
  | cons a t ih =>
      intro x hx
      simp only [List.foldl_cons, List.reverse_cons, List.foldl_append]
      rw [ih (f x a) (hf x a hx)]
      exact hfg x a hx

/-- C1 counterexample helper: the failing message for block length 15. -/
def M15 : List Nat := 1 :: List.replicate 14 0

/-- C1: the round-trip law as stated is false on the code.  For the
all-zero key of length 15 (`15 % 3 = 0`, so `mult = 5`, and
`gcd 5 15 = 5 ≠ 1`) the forward permutation loses the message bit at
position 0, and decryption returns the all-zero message, not `M15`. -/
theorem enc_dec_roundTrip_fails_n15 :
    (ENC (List.replicate 15 0) M15).bind (DEC (List.replicate 15 0)) ≠
      Except.ok M15 := by
  intro h
  have : (List.replicate 15 (0 : Nat)) = M15 := by
    have := Except.ok.inj ((rfl :
      (ENC (List.replicate 15 0) M15).bind (DEC (List.replicate 15 0)) =
        Except.ok (List.replicate 15 0)).symm.trans h)
    exact this
  simp [M15] at this

/-- C1 (amended): for every key `K` and message `M` of equal length `n`
with `n ≥ 1` and `n` not a multiple of 15, `DEC K (ENC K M) = M`.
(For `n = 0` both calls raise `ZeroDivisionError`, and for `n` a positive
multiple of 15 the permutation is not bijective and the round trip fails,
as the counterexample shows.) -/
theorem enc_dec_roundTrip (K M : List Nat) (hlen : K.length = M.length)
    (h15 : M.length % 15 ≠ 0) (hn : M.length ≠ 0) :
    (ENC K M).bind (DEC K) = Except.ok M := by
  have hE : ENC K M = Except.ok ((List.range 6).foldl (encRound K M.length) M) := by
    rw [ENC, if_neg (by omega), if_neg hn]
  have hlenE : ((List.range 6).foldl (encRound K M.length) M).length = M.length :=
    foldl_length_invariant _ _ (fun x r => length_encRound K M.length x r) _ M rfl
  rw [hE]
  show DEC K _ = Except.ok M
  rw [DEC, if_neg (by omega), if_neg (by omega)]
  congr 1
  calc (List.range 6).reverse.foldl
        (decRound K ((List.range 6).foldl (encRound K M.length) M).length)
        ((List.range 6).foldl (encRound K M.length) M)
      = (List.range 6).reverse.foldl (decRound K M.length)
          ((List.range 6).foldl (encRound K M.length) M) := by rw [hlenE]
    _ = M := by
        exact foldl_reverse_foldl (encRound K M.length) (decRound K M.length)
          M.length (fun x r _ => length_encRound K M.length x r)
          (fun x r hx => decRound_encRound K h15 r x hx)
          (List.range 6) M rfl

/-- C1 witness: a concrete round trip at `n = 4`. -/
theorem enc_dec_roundTrip_witness :
    (ENC [1, 0, 1, 1] [0, 1, 1, 0]).bind (DEC [1, 0, 1, 1]) =
      Except.ok [0, 1, 1, 0] :=
  enc_dec_roundTrip [1, 0, 1, 1] [0, 1, 1, 0] rfl (by decide) (by decide)

/-- C2 counterexample: `n = 60 = 4 × 15` is produced by a seed of length
15, and `60 % 3 = 0` selects `mult = 5` with `gcd 5 60 = 5 ≠ 1`; the round-0
position mapping does not visit each position of `[0, 60)` exactly once
(positions `0` and `12` collide at `0`). -/
theorem permIndex_not_bijective_n60 :
    ¬ ((List.range 60).map (permIndex 60 0)).Perm (List.range 60) := by decide

/-- C2 (amended): for every block length `n ≥ 1` that is not a multiple of
15 — in particular for all multiples of 3 or of 5 that are not multiples of
both — and every round `r`, the mapping `i ↦ (i * mult + r * 7) % n` visits
each position of `[0, n)` exactly once; for multiples of 15 it does not. -/
theorem permIndex_visits_once (n r : Nat) (hn : n ≠ 0) (h15 : n % 15 ≠ 0) :
    ((List.range n).map (permIndex n r)).Perm (List.range n) := by
  have hnodup : ((List.range n).map (permIndex n r)).Nodup :=
    (List.nodup_range n).map_on
      (fun x hx y hy h =>
        permIndex_inj h15 r (List.mem_range.mp hx) (List.mem_range.mp hy) h)
  have hsub : ((List.range n).map (permIndex n r)) ⊆ List.range n := by
    intro x hx
    obtain ⟨i, _, rfl⟩ := List.mem_map.mp hx
    exact List.mem_range.mpr (permIndex_lt hn r i)
  exact (hnodup.subperm hsub).perm_of_length_le (by simp)

/-- C2 witness: round 0 at the realistic block length `n = 8`. -/
theorem permIndex_visits_once_witness :
    ((List.range 8).map (permIndex 8 0)).Perm (List.range 8) :=
  permIndex_visits_once 8 0 (by decide) (by decide)

/-- C3 counterexample: on a zero-length key and zero-length data, `ENC`
and `DEC` do not return zero-length output — the shift computation
`(r * 11) % 0` raises `ZeroDivisionError`. -/
theorem enc_dec_empty_not_ok :
    ENC [] [] ≠ Except.ok [] ∧ DEC [] [] ≠ Except.ok [] :=
  ⟨fun h => Except.noConfusion h, fun h => Except.noConfusion h⟩

/-- C3 (amended): `GEN` on the empty seed returns the zero-length key
without error, but `ENC`/`DEC` on a zero-length key and zero-length data
raise `ZeroDivisionError` (division by zero in the per-round shift) instead
of returning zero-length output. -/
theorem empty_seed_degenerate (h : String → List Nat) :
    GEN h "" = [] ∧
      ENC [] [] = Except.error PyErr.zeroDivision ∧
      DEC [] [] = Except.error PyErr.zeroDivision :=
  ⟨rfl, rfl, rfl⟩

/-- C4: `ENC` and `DEC` fail with the LengthMismatch error exactly when the
key's length differs from the data argument's length (on matching lengths
the result is either a success or the distinct `ZeroDivisionError`), and on
a mismatch no partial output is produced. -/
theorem lengthMismatch_iff (K M : List Nat) :
    (ENC K M = Except.error PyErr.lengthMismatch ↔ K.length ≠ M.length) ∧
    (DEC K M = Except.error PyErr.lengthMismatch ↔ K.length ≠ M.length) := by
  constructor
  · rw [ENC]
    by_cases h1 : K.length ≠ M.length
    · simp [h1]
    · rw [if_neg h1]
      by_cases h2 : M.length = 0
      · simp [h2, h1]
        exact List.length_eq_zero.mp (by omega)
      · simp [h2, h1]
  · rw [DEC]
    by_cases h1 : K.length ≠ M.length
    · simp [h1]
    · rw [if_neg h1]
      by_cases h2 : M.length = 0
      · simp [h2, h1]
        exact List.length_eq_zero.mp (by omega)
      · simp [h2, h1]

/-- C6: on every successful call the output has the length of the data
argument, and the key, message and ciphertext lengths all agree. -/
theorem length_preservation (K M C X Y : List Nat) :
    (ENC K M = Except.ok C → C.length = M.length ∧ K.length = M.length) ∧
    (DEC K X = Except.ok Y → Y.length = X.length ∧ K.length = X.length) := by
  constructor
  · intro h
    rw [ENC] at h
    by_cases h1 : K.length ≠ M.length
    · rw [if_pos h1] at h; exact absurd h (by simp)
    · rw [if_neg h1] at h
      by_cases h2 : M.length = 0
      · rw [if_pos h2] at h; exact absurd h (by simp)
      · rw [if_neg h2] at h
        have hC := Except.ok.inj h
        refine ⟨?_, by omega⟩
        rw [← hC]
        exact foldl_length_invariant _ _
          (fun x r => length_encRound K M.length x r) _ M rfl
  · intro h
    rw [DEC] at h
    by_cases h1 : K.length ≠ X.length
    · rw [if_pos h1] at h; exact absurd h (by simp)
    · rw [if_neg h1] at h
      by_cases h2 : X.length = 0
      · rw [if_pos h2] at h; exact absurd h (by simp)
      · rw [if_neg h2] at h
        have hY := Except.ok.inj h
        refine ⟨?_, by omega⟩
        rw [← hY]
        exact foldl_length_invariant _ _
          (fun x r => length_decRound K X.length x r) _ X rfl

/-! Section: the key expansion loop. -/

theorem length_byteBits (b : Nat) : (byteBits b).length = 8 := by
  simp [byteBits]

theorem length_bytesToBits (bs : List Nat) :
    (bytesToBits bs).length = 8 * bs.length := by
  induction bs with
  | nil => rfl
  | cons b t ih =>
      show ((byteBits b :: t.map byteBits).flatten).length = _
      rw [List.flatten_cons, List.length_append, length_byteBits]
      show 8 + (bytesToBits t).length = _
      rw [ih, List.length_cons]
      ring

theorem stream_length (h : String → List Nat) (h32 : ∀ s, (h s).length = 32)
    (seed : String) (l : List Nat) :
    ((l.map (fun k => bytesToBits (h (blockInput seed k)))).flatten).length =
      256 * l.length := by
  induction l with
  | nil => rfl
  | cons a t ih =>
      rw [List.map_cons, List.flatten_cons, List.length_append, ih,
        length_bytesToBits, h32, List.length_cons]
      ring

/-- What the GEN loop computes: starting from a buffer `acc`, the loop
appends the digest-bit stream of blocks `c, c + 1, ...` until the buffer
holds `key_len` bits.  `m` is any sufficient number of 256-bit blocks and
`fuel` any sufficient iteration count. -/
theorem genLoop_eq (h : String → List Nat) (seed : String) (key_len : Nat)
    (h32 : ∀ s, (h s).length = 32) :
    ∀ (fuel c : Nat) (acc : List Nat) (m : Nat),
      key_len - acc.length ≤ fuel →
      key_len - acc.length ≤ 256 * m →
      genLoop h seed key_len fuel c acc =
        acc ++ (((List.range m).map
          (fun k => bytesToBits (h (blockInput seed (c + k))))).flatten).take
            (key_len - acc.length) := by
  intro fuel
  induction fuel with
  | zero =>
      intro c acc m hf _
      have h0 : key_len - acc.length = 0 := Nat.le_zero.mp hf
      rw [h0]
      simp [genLoop]
  | succ fuel ih =>
      intro c acc m hf hm
      simp only [genLoop]
      by_cases hlt : acc.length < key_len
      · rw [if_pos hlt]
        cases m with
        | zero => omega
        | succ m' =>
          have hB : (bytesToBits (h (blockInput seed c))).length = 256 := by
            rw [length_bytesToBits, h32]
          have hlen' : (acc ++
              (bytesToBits (h (blockInput seed c))).take (key_len - acc.length)).length
              = acc.length + min (key_len - acc.length) 256 := by
            rw [List.length_append, List.length_take, hB]
          rw [ih (c + 1) _ m' (by rw [hlen']; omega) (by rw [hlen']; omega)]
          have h3 : key_len - (acc ++
              (bytesToBits (h (blockInput seed c))).take (key_len - acc.length)).length
              = (key_len - acc.length) - 256 := by
            rw [hlen']; omega
          rw [h3]
          have hstream : ((List.range (m' + 1)).map
              (fun k => bytesToBits (h (blockInput seed (c + k))))).flatten
              = bytesToBits (h (blockInput seed c)) ++
                ((List.range m').map
                  (fun k => bytesToBits (h (blockInput seed (c + 1 + k))))).flatten := by
            rw [List.range_succ_eq_map, List.map_cons, List.flatten_cons, List.map_map]
            have harg : ((fun k => bytesToBits (h (blockInput seed (c + k)))) ∘ Nat.succ)
                = fun k => bytesToBits (h (blockInput seed (c + 1 + k))) := by
              funext k
              have : c + Nat.succ k = c + 1 + k := by omega
              simp only [Function.comp_apply, this]
            rw [harg]
            simp
          rw [hstream, List.take_append_eq_append_take, hB, List.append_assoc]
      · rw [if_neg hlt]
        have h0 : key_len - acc.length = 0 := by omega
        rw [h0]
        simp

theorem GEN_eq_spec (h : String → List Nat) (h32 : ∀ s, (h s).length = 32)
    (seed : String) : GEN h seed = expandKeySpec h seed := by
  rw [GEN, expandKeySpec]
  rw [genLoop_eq h seed _ h32 (4 * seed.length) 0 [] (4 * seed.length)
    (by simp) (by simp; omega)]
  simp [List.take_take]

theorem GEN_length (h : String → List Nat) (h32 : ∀ s, (h s).length = 32)
    (seed : String) : (GEN h seed).length = 4 * seed.length := by
  rw [GEN_eq_spec h h32 seed, expandKeySpec, List.length_take,
    stream_length h h32 seed, List.length_range]
  omega

/-- C5: for every 32-byte-digest hash and every seed, `GEN` produces
exactly `4 × length(seed)` bits, equal to the truncation of the block bit
stream `hash(seed), hash(seed || "1"), hash(seed || "2"), ...` with each
digest byte contributing its 8 bits most significant first, exactly as the
spec describes. -/
theorem gen_matches_spec (h : String → List Nat) (h32 : ∀ s, (h s).length = 32)
    (seed : String) :
    GEN h seed = expandKeySpec h seed ∧ (GEN h seed).length = 4 * seed.length :=
  ⟨GEN_eq_spec h h32 seed, GEN_length h h32 seed⟩

/-- C5 witness: the stand-in digest on the seed `"ab"`. -/
theorem gen_matches_spec_witness :
    GEN constDigest "ab" = expandKeySpec constDigest "ab" ∧
      (GEN constDigest "ab").length = 4 * "ab".length :=
  gen_matches_spec constDigest (fun _ => by simp [constDigest]) "ab"

/-! Section: XOR-linearity of the encryption rounds. -/

theorem xor_cancel_pair (a k b : Nat) : (a ^^^ k) ^^^ (b ^^^ k) = a ^^^ b := by
  calc (a ^^^ k) ^^^ (b ^^^ k) = a ^^^ (k ^^^ (b ^^^ k)) := by rw [Nat.xor_assoc]
    _ = a ^^^ (k ^^^ (k ^^^ b)) := by rw [Nat.xor_comm b k]
    _ = a ^^^ ((k ^^^ k) ^^^ b) := by rw [Nat.xor_assoc]
    _ = a ^^^ b := by rw [Nat.xor_self, Nat.zero_xor]

theorem xor_three_keys (a b c k : Nat) :
    ((a ^^^ k) ^^^ (b ^^^ k)) ^^^ (c ^^^ k) = ((a ^^^ b) ^^^ c) ^^^ k := by
  rw [xor_cancel_pair, Nat.xor_assoc (a ^^^ b) c k]

theorem length_listXor (a b : List Nat) :
    (listXor a b).length = min a.length b.length := by
  simp [listXor]

theorem getD_zipWith (f : Nat → Nat → Nat) (a b : List Nat) (i : Nat)
    (ha : i < a.length) (hb : i < b.length) :
    (List.zipWith f a b).getD i 0 = f (a.getD i 0) (b.getD i 0) := by
  have hz : i < (List.zipWith f a b).length := by
    rw [List.length_zipWith]; omega
  rw [List.getD_eq_getElem _ _ hz, List.getD_eq_getElem _ _ ha,
    List.getD_eq_getElem _ _ hb, List.getElem_zipWith]

theorem getD_listXor (x y : List Nat) (hxy : x.length = y.length) (i : Nat) :
    (listXor x y).getD i 0 = x.getD i 0 ^^^ y.getD i 0 := by
  by_cases hi : i < x.length
  · exact getD_zipWith _ x y i hi (hxy ▸ hi)
  · rw [List.getD_eq_default, List.getD_eq_default, List.getD_eq_default]
    · rfl
    · omega
    · omega
    · rw [length_listXor]; omega

theorem zipWith_map_range (f : Nat → Nat → Nat) (g k : Nat → Nat) (n : Nat) :
    List.zipWith f ((List.range n).map g) ((List.range n).map k) =
      (List.range n).map (fun i => f (g i) (k i)) := by
  rw [List.zipWith_map, List.zipWith_same]

/-- The keyed XOR step is affine: applied to the bitwise sum of three
buffers, it equals the bitwise sum of its three applications (the key
vector cancels in pairs). -/
theorem xorRound_xor3 (K : List Nat) (n r : Nat) (x y z : List Nat)
    (hx : x.length = n) (hy : y.length = n) (hz : z.length = n) :
    xorRound K n r (listXor (listXor x y) z) =
      listXor (listXor (xorRound K n r x) (xorRound K n r y))
        (xorRound K n r z) := by
  unfold xorRound listXor
  rw [zipWith_map_range, zipWith_map_range]
  apply List.map_congr_left
  intro i _
  have hg : (List.zipWith (· ^^^ ·) (List.zipWith (· ^^^ ·) x y) z).getD i 0
      = (x.getD i 0 ^^^ y.getD i 0) ^^^ z.getD i 0 := by
    have h1 := getD_listXor (listXor x y) z (by rw [length_listXor]; omega) i
    have h2 := getD_listXor x y (by omega) i
    simp only [listXor] at h1 h2
    rw [h1, h2]
  rw [hg]
  exact (xor_three_keys _ _ _ _).symm

theorem set_zipWith (f : Nat → Nat → Nat) :
    ∀ (a b : List Nat) (j x y : Nat), a.length = b.length →
      (List.zipWith f a b).set j (f x y) =
        List.zipWith f (a.set j x) (b.set j y) := by
  intro a
  induction a with
  | nil =>
      intro b j x y hab
      have : b = [] := by
        cases b with
        | nil => rfl
        | cons b0 b' => exact absurd hab (by simp)
      subst this
      rfl
  | cons a0 a' ih =>
      intro b j x y hab
      cases b with
      | nil => exact absurd hab (by simp)
      | cons b0 b' =>
          cases j with
          | zero => rfl
          | succ j' =>
              simp only [List.zipWith_cons_cons, List.set_cons_succ]
              rw [ih b' j' x y (by simpa using hab)]

theorem foldl_set_zipWith (f : Nat → Nat → Nat) (pos vx vy : Nat → Nat) :
    ∀ (l : List Nat) (X Y : List Nat), X.length = Y.length →
      l.foldl (fun a i => a.set (pos i) (f (vx i) (vy i)))
          (List.zipWith f X Y) =
        List.zipWith f (l.foldl (fun a i => a.set (pos i) (vx i)) X)
          (l.foldl (fun a i => a.set (pos i) (vy i)) Y) := by
  intro l
  induction l with
  | nil => intro X Y _; rfl
  | cons a t ih =>
      intro X Y hXY
      simp only [List.foldl_cons]
      rw [set_zipWith f X Y (pos a) (vx a) (vy a) hXY]
      exact ih _ _ (by rw [List.length_set, List.length_set, hXY])

/-- The scatter permutation is linear: it commutes with bitwise XOR. -/
theorem permRound_xor (n r : Nat) (x y : List Nat) (hxy : x.length = y.length) :
    permRound n r (listXor x y) =
      listXor (permRound n r x) (permRound n r y) := by
  unfold permRound listXor
  have hfun : (fun (acc : List Nat) i =>
      acc.set (permIndex n r i) ((List.zipWith (· ^^^ ·) x y).getD i 0))
      = fun (acc : List Nat) i =>
          acc.set (permIndex n r i) (x.getD i 0 ^^^ y.getD i 0) := by
    funext acc i
    rw [show (List.zipWith (· ^^^ ·) x y).getD i 0 = x.getD i 0 ^^^ y.getD i 0
      from getD_listXor x y hxy i]
  rw [hfun]
  exact foldl_set_zipWith (· ^^^ ·) (permIndex n r)
    (fun i => x.getD i 0) (fun i => y.getD i 0) (List.range n) x y hxy

/-- One encryption round is affine over XOR. -/
theorem encRound_xor3 (K : List Nat) (n r : Nat) (x y z : List Nat)
    (hx : x.length = n) (hy : y.length = n) (hz : z.length = n) :
    encRound K n (listXor (listXor x y) z) r =
      listXor (listXor (encRound K n x r) (encRound K n y r))
        (encRound K n z r) := by
  unfold encRound
  rw [xorRound_xor3 K n r x y z hx hy hz]
  rw [permRound_xor n r _ _ (by rw [length_listXor, length_xorRound,
    length_xorRound, length_xorRound]; omega)]
  rw [permRound_xor n r _ _ (by rw [length_xorRound, length_xorRound])]

/-- All six rounds together are affine over XOR. -/
theorem foldl_encRound_xor3 (K : List Nat) (n : Nat) :
    ∀ (l : List Nat) (x y z : List Nat),
      x.length = n → y.length = n → z.length = n →
      l.foldl (encRound K n) (listXor (listXor x y) z) =
        listXor (listXor (l.foldl (encRound K n) x) (l.foldl (encRound K n) y))
          (l.foldl (encRound K n) z) := by
  intro l
  induction l with
  | nil => intro x y z _ _ _; rfl
  | cons a t ih =>
      intro x y z hx hy hz
      simp only [List.foldl_cons]
      rw [encRound_xor3 K n a x y z hx hy hz]
      exact ih _ _ _ (length_encRound K n x a) (length_encRound K n y a)
        (length_encRound K n z a)

theorem listXor_zero_right (x : List Nat) (n : Nat) (hx : x.length = n) :
    listXor x (List.replicate n 0) = x := by
  subst hx
  induction x with
  | nil => rfl
  | cons a t ih =>
      simp only [List.length_cons, List.replicate_succ, listXor,
        List.zipWith_cons_cons, Nat.xor_zero] at *
      rw [ih]

/-- C9: the cipher is affine over GF(2) in the message — for a fixed key
the ciphertext of `M1 xor M2` is the bitwise XOR of the ciphertexts of
`M1`, of `M2`, and of the all-zero message; the key contributes only an
additive constant and the message is moved by a key-independent position
re-indexing. -/
theorem enc_xor_linear (K M1 M2 E1 E2 E0 : List Nat)
    (h1 : M1.length = K.length) (h2 : M2.length = K.length)
    (hn : K.length ≠ 0)
    (hE1 : ENC K M1 = Except.ok E1) (hE2 : ENC K M2 = Except.ok E2)
    (hE0 : ENC K (List.replicate K.length 0) = Except.ok E0) :
    ENC K (listXor M1 M2) = Except.ok (listXor (listXor E1 E2) E0) := by
  have hlx : (listXor M1 M2).length = K.length := by
    rw [length_listXor]; omega
  have hrep : (List.replicate K.length (0 : Nat)).length = K.length :=
    List.length_replicate _ _
  rw [ENC, if_neg (by rw [hlx]; exact fun hc => hc rfl),
    if_neg (by rw [hlx]; exact hn), hlx]
  rw [ENC, if_neg (by omega), if_neg (by omega)] at hE1
  rw [ENC, if_neg (by omega), if_neg (by omega)] at hE2
  rw [ENC, if_neg (by rw [hrep]; exact fun hc => hc rfl),
    if_neg (by rw [hrep]; exact hn), hrep] at hE0
  have e1 := Except.ok.inj hE1
  have e2 := Except.ok.inj hE2
  have e0 := Except.ok.inj hE0
  rw [h1] at e1
  rw [h2] at e2
  congr 1
  calc (List.range 6).foldl (encRound K K.length) (listXor M1 M2)
      = (List.range 6).foldl (encRound K K.length)
          (listXor (listXor M1 M2) (List.replicate K.length 0)) := by
        rw [listXor_zero_right _ _ hlx]
    _ = listXor (listXor ((List.range 6).foldl (encRound K K.length) M1)
          ((List.range 6).foldl (encRound K K.length) M2))
          ((List.range 6).foldl (encRound K K.length)
            (List.replicate K.length 0)) :=
        foldl_encRound_xor3 K K.length (List.range 6) M1 M2 _
          (by omega) (by omega) (by simp)
    _ = listXor (listXor E1 E2) E0 := by rw [e1, e2, e0]

/-- C9 witness: a concrete instance at `n = 4`. -/
theorem enc_xor_linear_witness :
    ENC [1, 0, 1, 1] (listXor [1, 1, 0, 0] [1, 0, 1, 0]) =
      Except.ok (listXor (listXor [0, 1, 0, 1] [0, 1, 1, 0]) [0, 0, 1, 1]) :=
  enc_xor_linear [1, 0, 1, 1] [1, 1, 0, 0] [1, 0, 1, 0] [0, 1, 0, 1]
    [0, 1, 1, 0] [0, 0, 1, 1] rfl rfl (by decide) rfl rfl rfl

/-! Section: bit-valuedness of all produced sequences. -/

/-- A bit in the sense of the data model: the value 0 or the value 1. -/
def isBit (b : Nat) : Bool := b == 0 || b == 1

theorem all_isBit_iff (l : List Nat) : l.all isBit = true ↔ ∀ x ∈ l, x ≤ 1 := by
  rw [List.all_eq_true]
  constructor
  · intro H x hx
    have := H x hx
    simp only [isBit, Bool.or_eq_true, beq_iff_eq] at this
    omega
  · intro H x hx
    have := H x hx
    simp only [isBit, Bool.or_eq_true, beq_iff_eq]
    omega

theorem xor_le_one {a b : Nat} (ha : a ≤ 1) (hb : b ≤ 1) : a ^^^ b ≤ 1 := by
  interval_cases a <;> interval_cases b <;> decide

theorem getD_le_one {C : List Nat} (hC : ∀ x ∈ C, x ≤ 1) (i : Nat) :
    C.getD i 0 ≤ 1 := by
  by_cases hi : i < C.length
  · rw [List.getD_eq_getElem C 0 hi]
    exact hC _ (List.getElem_mem hi)
  · rw [List.getD_eq_default C 0 (by omega)]
    omega

theorem xorRound_bits (K : List Nat) (n r : Nat) (C : List Nat)
    (hK : ∀ x ∈ K, x ≤ 1) (hC : ∀ x ∈ C, x ≤ 1) :
    ∀ x ∈ xorRound K n r C, x ≤ 1 := by
  intro x hx
  rw [xorRound] at hx
  obtain ⟨i, _, rfl⟩ := List.mem_map.mp hx
  exact xor_le_one (getD_le_one hC i) (getD_le_one hK _)

theorem foldl_set_bits (pos v : Nat → Nat) (hv : ∀ i, v i ≤ 1) :
    ∀ (l acc : List Nat), (∀ x ∈ acc, x ≤ 1) →
      ∀ x ∈ l.foldl (fun a i => a.set (pos i) (v i)) acc, x ≤ 1 := by
  intro l
  induction l with
  | nil => intro acc hacc; exact hacc
  | cons a t ih =>
      intro acc hacc
      refine ih _ ?_
      intro x hx
      rcases List.mem_or_eq_of_mem_set hx with hmem | hval
      · exact hacc x hmem
      · rw [hval]; exact hv a

theorem permRound_bits (n r : Nat) (C : List Nat) (hC : ∀ x ∈ C, x ≤ 1) :
    ∀ x ∈ permRound n r C, x ≤ 1 :=
  foldl_set_bits (permIndex n r) (fun i => C.getD i 0)
    (fun i => getD_le_one hC i) (List.range n) C hC

theorem permRoundInv_bits (n r : Nat) (M : List Nat) (hM : ∀ x ∈ M, x ≤ 1) :
    ∀ x ∈ permRoundInv n r M, x ≤ 1 := by
  intro x hx
  rw [permRoundInv] at hx
  obtain ⟨i, _, rfl⟩ := List.mem_map.mp hx
  exact getD_le_one hM _

theorem foldl_encRound_bits (K : List Nat) (n : Nat) (hK : ∀ x ∈ K, x ≤ 1) :
    ∀ (l : List Nat) (x : List Nat), (∀ b ∈ x, b ≤ 1) →
      ∀ b ∈ l.foldl (encRound K n) x, b ≤ 1 := by
  intro l
  induction l with
  | nil => intro x hx; exact hx
  | cons a t ih =>
      intro x hx
      exact ih _ (permRound_bits n a _ (xorRound_bits K n a x hK hx))

theorem foldl_decRound_bits (K : List Nat) (n : Nat) (hK : ∀ x ∈ K, x ≤ 1) :
    ∀ (l : List Nat) (x : List Nat), (∀ b ∈ x, b ≤ 1) →
      ∀ b ∈ l.foldl (decRound K n) x, b ≤ 1 := by
  intro l
  induction l with
  | nil => intro x hx; exact hx
  | cons a t ih =>
      intro x hx
      exact ih _ (xorRound_bits K n a _ hK (permRoundInv_bits n a x hx))

theorem bytesToBits_bits (bs : List Nat) : ∀ x ∈ bytesToBits bs, x ≤ 1 := by
  intro x hx
  rw [bytesToBits] at hx
  obtain ⟨l, hl, hxl⟩ := List.mem_flatten.mp hx
  obtain ⟨b, _, rfl⟩ := List.mem_map.mp hl
  rw [byteBits] at hxl
  obtain ⟨i, _, rfl⟩ := List.mem_map.mp hxl
  rw [Nat.and_one_is_mod]
  omega

theorem genLoop_bits (h : String → List Nat) (seed : String) (key_len : Nat) :
    ∀ (fuel c : Nat) (acc : List Nat), (∀ x ∈ acc, x ≤ 1) →
      ∀ x ∈ genLoop h seed key_len fuel c acc, x ≤ 1 := by
  intro fuel
  induction fuel with
  | zero =>
      intro c acc hacc
      simpa [genLoop] using hacc
  | succ fuel ih =>
      intro c acc hacc
      simp only [genLoop]
      by_cases hlt : acc.length < key_len
      · rw [if_pos hlt]
        refine ih _ _ ?_
        intro x hx
        rcases List.mem_append.mp hx with hm | hm
        · exact hacc x hm
        · exact bytesToBits_bits _ x (List.mem_of_mem_take hm)
      · rw [if_neg hlt]
        exact hacc

theorem GEN_bits (h : String → List Nat) (seed : String) :
    ∀ x ∈ GEN h seed, x ≤ 1 := by
  intro x hx
  rw [GEN] at hx
  exact genLoop_bits h seed _ _ _ [] (by intro b hb; cases hb) x
    (List.mem_of_mem_take hx)

/-- C10: every element of `GEN` is the bit 0 or 1, and whenever every
element of the key and of the data argument is 0 or 1, every element of a
successful `ENC` or `DEC` output is 0 or 1. -/
theorem bits_invariant (h : String → List Nat) (seed : String)
    (K M C : List Nat) :
    (GEN h seed).all isBit = true ∧
      (K.all isBit = true → M.all isBit = true →
        (ENC K M = Except.ok C → C.all isBit = true) ∧
        (DEC K M = Except.ok C → C.all isBit = true)) := by
  constructor
  · exact (all_isBit_iff _).mpr (GEN_bits h seed)
  · intro hK hM
    rw [all_isBit_iff] at hK hM
    constructor
    · intro hE
      rw [ENC] at hE
      by_cases hc1 : K.length ≠ M.length
      · rw [if_pos hc1] at hE; exact absurd hE (by simp)
      · rw [if_neg hc1] at hE
        by_cases hc2 : M.length = 0
        · rw [if_pos hc2] at hE; exact absurd hE (by simp)
        · rw [if_neg hc2] at hE
          rw [all_isBit_iff, ← Except.ok.inj hE]
          exact foldl_encRound_bits K M.length hK (List.range 6) M hM
    · intro hD
      rw [DEC] at hD
      by_cases hc1 : K.length ≠ M.length
      · rw [if_pos hc1] at hD; exact absurd hD (by simp)
      · rw [if_neg hc1] at hD
        by_cases hc2 : M.length = 0
        · rw [if_pos hc2] at hD; exact absurd hD (by simp)
        · rw [if_neg hc2] at hD
          rw [all_isBit_iff, ← Except.ok.inj hD]
          exact foldl_decRound_bits K M.length hK (List.range 6).reverse M hM

/-- C10 witness: the stand-in digest, and concrete `ENC`/`DEC` calls at
`n = 4`. -/
theorem bits_invariant_witness :
    (GEN constDigest "a").all isBit = true ∧
      ([0, 0, 0, 0] : List Nat).all isBit = true ∧
      ([1, 0, 1, 0] : List Nat).all isBit = true := by
  refine ⟨(bits_invariant constDigest "a" [] [] []).1, ?_, ?_⟩
  · exact ((bits_invariant constDigest "a" [1, 0, 1, 1] [0, 1, 1, 0]
      [0, 0, 0, 0]).2 (by decide) (by decide)).1 rfl
  · exact ((bits_invariant constDigest "a" [1, 0, 1, 1] [0, 1, 1, 0]
      [1, 0, 1, 0]).2 (by decide) (by decide)).2 rfl

/-- C7: the seed `"ab"` yields a key of length exactly 8; for `n = 8` the
permutation multiplier is 3 in every round (it depends only on `n`, and
`8 % 3 ≠ 0`); the position mapping for `n = 8`, round 0 sends positions
`0..7` to `[0, 3, 6, 1, 4, 7, 2, 5]`; and composing the forward scatter
with its declared inverse (the gather used by `DEC`) is the identity on
every buffer of length 8. -/
theorem concrete_scenario_ab (h : String → List Nat)
    (h32 : ∀ s, (h s).length = 32) :
    (GEN h "ab").length = 8 ∧
      multOf 8 = 3 ∧
      (List.range 8).map (permIndex 8 0) = [0, 3, 6, 1, 4, 7, 2, 5] ∧
      ∀ x : List Nat, x.length = 8 → permRoundInv 8 0 (permRound 8 0 x) = x := by
  refine ⟨?_, by decide, by decide, ?_⟩
  · rw [GEN_length h h32 "ab"]
    rfl
  · intro x hx
    exact permRoundInv_permRound (by decide) 0 x hx

/-- C7 witness: the stand-in digest and a concrete length-8 buffer. -/
theorem concrete_scenario_ab_witness :
    (GEN constDigest "ab").length = 8 ∧ multOf 8 = 3 ∧
      (List.range 8).map (permIndex 8 0) = [0, 3, 6, 1, 4, 7, 2, 5] ∧
      permRoundInv 8 0 (permRound 8 0 [1, 0, 1, 1, 0, 0, 1, 0]) =
        [1, 0, 1, 1, 0, 0, 1, 0] := by
  obtain ⟨p1, p2, p3, p4⟩ :=
    concrete_scenario_ab constDigest (fun _ => by simp [constDigest])
  exact ⟨p1, p2, p3, p4 _ (by decide)⟩

/-- C6 witness: concrete successful calls at `n = 1`. -/
theorem length_preservation_witness :
    ENC [1] [0] = Except.ok [0] ∧ DEC [1] [0] = Except.ok [0] ∧
      (([0] : List Nat).length = ([0] : List Nat).length ∧
        ([1] : List Nat).length = ([0] : List Nat).length) ∧
      (([0] : List Nat).length = ([0] : List Nat).length ∧
        ([1] : List Nat).length = ([0] : List Nat).length) :=
  ⟨rfl, rfl, (length_preservation [1] [0] [0] [0] [0]).1 rfl,
    (length_preservation [1] [0] [0] [0] [0]).2 rfl⟩
